import Mathlib

/-
Verification of the raio write-throughput benchmark (src/main.rs).

The development shallowly embeds the parts of the program the claims are
about:

* the command-line configuration (`Cmd::from_env`, defaults, strategy parsing);
* the block generators `make_block` (zero-initialized `Vec`) and
  `make_block_mem_aligned` (raw aligned allocation, whose initial contents are
  modelled by an explicit `initMem` parameter, since `std::alloc::alloc`
  returns uninitialized memory);
* the final report line (`written` accumulator and the `block_size * count`
  figure printed by `write_file`);
* the file offsets targeted by each strategy's writes;
* the three io_uring strategies, modelled as event traces over a
  submission/completion ring.  A trace records submission-queue pushes,
  `submit_and_wait` calls, handled completions, buffer frees and fatal
  aborts (panicking `assert!`/`expect`).  Completion results are supplied by
  an oracle `results : Nat -> Int` (indexed by submission), and for the
  unchained `IOUring2` strategy the kernel's retirement order is supplied by
  an oracle `ord : Nat -> Nat` (arrival position to submission index), since
  unchained completions carry no ordering guarantee.  `IOUring8` submissions
  are chained with `IO_LINK`, which guarantees retirement in submission
  order, so its trace retires completions FIFO.
-/

namespace Raio

/-- The benchmark strategies (enum `Strategy` in src/main.rs). -/
inductive Strategy
  | Sequential
  | Async
  | Async2
  | IOUring
  | IOUring2
  | IOUring8
  deriving DecidableEq, Repr

/-- Strategy parsing (`impl FromStr for Strategy`): the six recognized
strings; anything else is an error (`none`). -/
def Strategy.from_str (s : String) : Option Strategy :=
  match s with
  | "seq" => some .Sequential
  | "async" => some .Async
  | "async2" => some .Async2
  | "io_uring" => some .IOUring
  | "io_uring2" => some .IOUring2
  | "io_uring8" => some .IOUring8
  | _ => none

/-- The two subcommands (enum `SubCmd`). -/
inductive SubCmd
  | Write (file : String) (block_size : Nat) (count : Nat) (strategy : Strategy)
  | Read (file : String) (block_size : Nat) (count : Nat) (strategy : Strategy)
  deriving DecidableEq, Repr

/-- Parsed command (struct `Cmd`). -/
structure Cmd where
  sub : SubCmd
  verbose : Bool
  deriving DecidableEq, Repr

/-- The raw command line as seen by `pico_args`: the subcommand word and the
optional flag values.  `block_size` and `count` are the already-parsed
numeric values of `--block-size` / `--count` when the flags are present. -/
structure RawArgs where
  subcommand : Option String
  file : Option String
  block_size : Option Nat
  count : Option Nat
  strategy : Option String
  verbose : Bool
  deriving DecidableEq, Repr

/-- `opt_value_from_str("--strategy")?.unwrap_or_default()`: a missing flag
defaults to `Strategy::Sequential`; a present flag must parse. -/
def parseStrategyOpt (o : Option String) : Option Strategy :=
  match o with
  | none => some Strategy.Sequential
  | some s => Strategy.from_str s

/-- `Cmd::from_env`: requires a `write`/`read` subcommand and a `--file`
value; `--block-size` defaults to 32 and `--count` to 1.  Note that no
validation whatsoever is applied to `block_size`. -/
def Cmd.from_env (args : RawArgs) : Option Cmd :=
  match args.subcommand with
  | some "write" =>
    match args.file, parseStrategyOpt args.strategy with
    | some f, some strat =>
      some ⟨SubCmd.Write f (args.block_size.getD 32) (args.count.getD 1) strat, args.verbose⟩
    | _, _ => none
  | some "read" =>
    match args.file, parseStrategyOpt args.strategy with
    | some f, some strat =>
      some ⟨SubCmd.Read f (args.block_size.getD 32) (args.count.getD 1) strat, args.verbose⟩
    | _, _ => none
  | _ => none

/-- Little-endian byte encoding of a `u64` value (`u64::to_le_bytes`):
byte `j` of `x` is `x / 256^j % 256`. -/
def u64_to_le_bytes (x : Nat) : List Nat :=
  (List.range 8).map fun j => x / 256 ^ j % 256

/-- `data[pos..pos + src.len()].copy_from_slice(src)`: write the bytes of
`src` into `data` starting at position `pos`. -/
def copyFromSlice : List Nat → Nat → List Nat → List Nat
  | data, _, [] => data
  | data, pos, b :: bs => copyFromSlice (data.set pos b) (pos + 1) bs

/-- The stamping loop shared verbatim by `make_block` and
`make_block_mem_aligned`: for `i in 0..block_size/64`, write the
little-endian `u64` encoding of `idx + i` into `data[i*64 .. i*64+8]`.
The `u64` addition wraps, hence the `% 2^64`. -/
def fillChunks (idx : Nat) (nChunks : Nat) (data : List Nat) : List Nat :=
  (List.range nChunks).foldl
    (fun d i => copyFromSlice d (i * 64) (u64_to_le_bytes ((idx + i) % 2 ^ 64))) data

/-- `make_block`: a `vec![0u8; block_size]` buffer with every 64-byte chunk
stamped. -/
def make_block (block_size idx : Nat) : List Nat :=
  fillChunks idx (block_size / 64) (List.replicate block_size 0)

/-- `make_block_mem_aligned`: the same stamping loop over a buffer obtained
from `std::alloc::alloc` (4096-byte aligned).  That allocation is
uninitialized, so the buffer's initial contents are an explicit parameter
`initMem` (of length `block_size`); only the stamped bytes are overwritten. -/
def make_block_mem_aligned (block_size idx : Nat) (initMem : List Nat) : List Nat :=
  fillChunks idx (block_size / 64) initMem

theorem copyFromSlice_length (src : List Nat) (data : List Nat) (pos : Nat) :
    (copyFromSlice data pos src).length = data.length := by
  induction src generalizing data pos with
  | nil => rfl
  | cons b bs ih => simp [copyFromSlice, ih]

theorem copyFromSlice_get (src : List Nat) (data : List Nat) (pos k : Nat)
    (h : pos + src.length ≤ data.length) :
    (copyFromSlice data pos src)[k]? =
      if pos ≤ k ∧ k < pos + src.length then src[k - pos]? else data[k]? := by
  induction src generalizing data pos with
  | nil =>
    rw [copyFromSlice, if_neg]
    simp only [List.length_nil]
    omega
  | cons b bs ih =>
    simp only [List.length_cons] at h
    rw [copyFromSlice, ih _ _ (by rw [List.length_set]; omega)]
    simp only [List.length_cons, List.getElem?_set]
    by_cases h1 : pos + 1 ≤ k ∧ k < pos + 1 + bs.length
    · rw [if_pos h1, if_pos ⟨by omega, by omega⟩]
      have hsub : k - pos = (k - (pos + 1)) + 1 := by omega
      rw [hsub, List.getElem?_cons_succ]
    · rw [if_neg h1]
      by_cases h2 : pos = k
      · subst h2
        rw [if_pos rfl, if_pos (by omega), if_pos ⟨le_refl _, by omega⟩, Nat.sub_self,
          List.getElem?_cons_zero]
      · rw [if_neg h2, if_neg (by omega)]

theorem fillChunks_length (idx n : Nat) (data : List Nat) :
    (fillChunks idx n data).length = data.length := by
  induction n with
  | zero => rfl
  | succ n ih =>
    rw [fillChunks, List.range_succ, List.foldl_append]
    simpa [copyFromSlice_length] using ih

theorem u64_to_le_bytes_length (x : Nat) : (u64_to_le_bytes x).length = 8 := by
  simp [u64_to_le_bytes]

theorem u64_to_le_bytes_get (x j : Nat) (hj : j < 8) :
    (u64_to_le_bytes x)[j]? = some (x / 256 ^ j % 256) := by
  simp [u64_to_le_bytes, List.getElem?_map, List.getElem?_range hj]

theorem fillChunks_get (idx : Nat) (n : Nat) (data : List Nat)
    (hn : n * 64 ≤ data.length) (k : Nat) :
    (fillChunks idx n data)[k]? =
      if k / 64 < n ∧ k % 64 < 8 then
        some ((idx + k / 64) % 2 ^ 64 / 256 ^ (k % 64) % 256)
      else data[k]? := by
  induction n with
  | zero => simp [fillChunks]
  | succ n ih =>
    have hstep : fillChunks idx (n + 1) data =
        copyFromSlice (fillChunks idx n data) (n * 64)
          (u64_to_le_bytes ((idx + n) % 2 ^ 64)) := by
      rw [fillChunks, List.range_succ, List.foldl_append]
      rfl
    rw [hstep, copyFromSlice_get _ _ _ _
      (by rw [u64_to_le_bytes_length, fillChunks_length]; omega)]
    rw [u64_to_le_bytes_length]
    by_cases hin : n * 64 ≤ k ∧ k < n * 64 + 8
    · have hdiv : k / 64 = n := by omega
      have hmod : k - n * 64 = k % 64 := by omega
      rw [if_pos hin, hmod, u64_to_le_bytes_get _ _ (by omega),
        if_pos ⟨by omega, by omega⟩, hdiv]
    · rw [if_neg hin, ih (by omega)]
      by_cases hk : k / 64 < n ∧ k % 64 < 8
      · rw [if_pos hk, if_pos ⟨by omega, hk.2⟩]
      · rw [if_neg hk, if_neg (by omega)]

theorem make_block_length (block_size idx : Nat) :
    (make_block block_size idx).length = block_size := by
  rw [make_block, fillChunks_length, List.length_replicate]

theorem make_block_mem_aligned_length (block_size idx : Nat) (initMem : List Nat) :
    (make_block_mem_aligned block_size idx initMem).length = initMem.length := by
  rw [make_block_mem_aligned, fillChunks_length]

theorem make_block_stamp (block_size idx c j : Nat) (hc : c < block_size / 64)
    (hj : j < 64) :
    (make_block block_size idx)[64 * c + j]? =
      if j < 8 then some ((idx + c) % 2 ^ 64 / 256 ^ j % 256)
      else (List.replicate block_size (0 : Nat))[64 * c + j]? := by
  rw [make_block, fillChunks_get _ _ _
    (by simpa using Nat.div_mul_le_self block_size 64)]
  have h1 : (64 * c + j) / 64 = c := by omega
  have h2 : (64 * c + j) % 64 = j := by omega
  rw [h1, h2]
  by_cases hj8 : j < 8
  · rw [if_pos ⟨hc, hj8⟩, if_pos hj8]
  · rw [if_neg (by omega), if_neg hj8]

theorem make_block_mem_aligned_stamp (block_size idx c j : Nat) (initMem : List Nat)
    (hlen : initMem.length = block_size) (hc : c < block_size / 64) (hj : j < 64) :
    (make_block_mem_aligned block_size idx initMem)[64 * c + j]? =
      if j < 8 then some ((idx + c) % 2 ^ 64 / 256 ^ j % 256)
      else initMem[64 * c + j]? := by
  rw [make_block_mem_aligned, fillChunks_get _ _ _
    (by rw [hlen]; exact Nat.div_mul_le_self block_size 64)]
  have h1 : (64 * c + j) / 64 = c := by omega
  have h2 : (64 * c + j) % 64 = j := by omega
  rw [h1, h2]
  by_cases hj8 : j < 8
  · rw [if_pos ⟨hc, hj8⟩, if_pos hj8]
  · rw [if_neg (by omega), if_neg hj8]

/-- The report printed at the end of `write_file`: the `written` accumulator
and the `block_size * count` figure, both `u64` values.  The line printed is
`writen {written}/{block_size * count} bytes in ...`. -/
structure Report where
  written : Nat
  total : Nat
  deriving DecidableEq, Repr

/-- The `written` accumulator of `write_file` on a fully successful run
(each `write_at` reports `block_size` bytes written).  Only the `Async` and
`Async2` arms ever add to `written`; the `Sequential` and io_uring arms
leave it at 0. -/
def writeFileWritten : Strategy → Nat → Nat → Nat
  | .Sequential, _, _ => 0
  | .Async, block_size, count => (List.range count).foldl (fun acc _ => acc + block_size) 0
  | .Async2, block_size, count =>
    if count = 0 then 0
    else (List.range' 1 (count - 1)).foldl (fun acc _ => acc + block_size) 0 + block_size
  | .IOUring, _, _ => 0
  | .IOUring2, _, _ => 0
  | .IOUring8, _, _ => 0

/-- The final report of a successful `write_file` run: `written` as
accumulated by the strategy's arm, and the printed total `block_size * count`
(`u64` multiplication, hence the wrap-around). -/
def writeFileReport (strategy : Strategy) (block_size count : Nat) : Report :=
  ⟨writeFileWritten strategy block_size count % 2 ^ 64, block_size * count % 2 ^ 64⟩

/-- The writes issued by each strategy arm of `write_file`, as pairs of
(block index, target file offset).  Every arm passes offset 0: the
`Sequential`/`Async`/`Async2` arms call `write_all_at(block, 0)` /
`write_at(block, 0)` (the computed `pos` is commented out), and the io_uring
arms build `opcode::Write::new(fd, buf, len)` without `.offset(..)`, whose
default offset is 0. -/
def writeOps : Strategy → Nat → Nat → List (Nat × Nat)
  | .Sequential, _, count => (List.range count).map fun i => (i, 0)
  | .Async, _, count => (List.range count).map fun i => (i, 0)
  | .Async2, _, count =>
    if count = 0 then [] else (0, 0) :: (List.range' 1 (count - 1)).map fun i => (i, 0)
  | .IOUring, _, count => (List.range count).map fun i => (i, 0)
  | .IOUring2, _, count =>
    if count = 0 then [] else (0, 0) :: (List.range' 1 (count - 1)).map fun i => (i, 0)
  | .IOUring8, _, count => (List.range count).map fun i => (i, 0)

/-- One observable event of an io_uring strategy run.
`push tag bufId` is `ring.submission().push(..)` of a write entry stamped
with `user_data = tag` and referencing the buffer of block `bufId`;
`submitWait want` is `ring.submit_and_wait(want)`;
`complete tag bufId res` is one CQE handled by the strategy (popped from the
completion queue), belonging to the submission for block `bufId`;
`free bufId` is `mem_aligned_free` of that block's buffer;
`abortRun` is a panicking `assert!` (negative write result). -/
inductive RingEvent
  | push (tag : Nat) (bufId : Nat)
  | submitWait (want : Nat)
  | complete (tag : Nat) (bufId : Nat) (res : Int)
  | free (bufId : Nat)
  | abortRun
  deriving DecidableEq, Repr

/-- The `Strategy::IOUring` loop body from block `i`, with `n` blocks left:
allocate + fill, push with tag `0x42`, `submit_and_wait(1)`, pop the single
CQE (its result is `results i`; only one op is ever in flight, so the CQE is
block `i`'s), abort if the result is negative, otherwise free the buffer. -/
def iouringLoop (results : Nat → Int) : Nat → Nat → List RingEvent
  | _, 0 => []
  | i, n + 1 =>
    RingEvent.push 0x42 i :: RingEvent.submitWait 1 ::
      RingEvent.complete 0x42 i (results i) ::
      (if results i < 0 then [RingEvent.abortRun]
       else RingEvent.free i :: iouringLoop results (i + 1) n)

/-- Trace of `Strategy::IOUring` (window depth 1) for `count` blocks. -/
def iouringTrace (count : Nat) (results : Nat → Int) : List RingEvent :=
  iouringLoop results 0 count

/-- The `Strategy::IOUring2` steady state from block `i` (1 ≤ i), with `n`
blocks left to submit.  Each loop iteration pushes block `i` (tag `0x42`,
like every `IOUring2` submission), waits for one completion and frees
`current` (block `i - 1`'s buffer).  The completions are unchained, so the
kernel may retire them in any order: arrival number `k` belongs to
submission `ord k` and carries result `results (ord k)`.  The `n = 0` arm is
the final `wait` + free of the last buffer. -/
def iouring2Body (results : Nat → Int) (ord : Nat → Nat) : Nat → Nat → List RingEvent
  | i, 0 =>
    RingEvent.submitWait 1 ::
      RingEvent.complete 0x42 (ord (i - 1)) (results (ord (i - 1))) ::
      (if results (ord (i - 1)) < 0 then [RingEvent.abortRun]
       else [RingEvent.free (i - 1)])
  | i, n + 1 =>
    RingEvent.push 0x42 i :: RingEvent.submitWait 1 ::
      RingEvent.complete 0x42 (ord (i - 1)) (results (ord (i - 1))) ::
      (if results (ord (i - 1)) < 0 then [RingEvent.abortRun]
       else RingEvent.free (i - 1) :: iouring2Body results ord (i + 1) n)

/-- Trace of `Strategy::IOUring2` (window depth 2): push block 0, then the
steady pipeline. -/
def iouring2Trace (count : Nat) (results : Nat → Int) (ord : Nat → Nat) : List RingEvent :=
  if count = 0 then [] else RingEvent.push 0x42 0 :: iouring2Body results ord 1 (count - 1)

/-- A legitimate retirement order for an `IOUring2` run of `count` blocks:
arrival `k` must name a submission that is already in the kernel at the
`k`-th wait (block `k + 1` has just been pushed when wait `k` runs, and no
block beyond `count - 1` exists), and no submission completes twice. -/
def ValidOrd (count : Nat) (ord : Nat → Nat) : Prop :=
  (∀ k, k < count → ord k < min (k + 2) count) ∧
    ∀ k, k < count → ∀ l, l < count → ord k = ord l → k = l

/-- The `Strategy::IOUring8` priming loop: `for i in 0..min(7, count)`,
push block `i` with tag `i` (no submit yet; the entries accumulate in the
submission queue). -/
def iouring8Prime (count : Nat) : List RingEvent :=
  (List.range (min 7 count)).map fun i => RingEvent.push i i

/-- The `Strategy::IOUring8` steady loop from block `i` (7 ≤ i), `n` blocks
left: push block `i` (tag `i`), `submit_and_wait(1)`, handle one CQE and
free the queue head (block `i - 7`).  All submissions are chained with
`IO_LINK`, so completions retire in submission order: the CQE handled here
is block `i - 7`'s.  A negative result is only printed; the run continues. -/
def iouring8Steady (results : Nat → Int) : Nat → Nat → List RingEvent
  | _, 0 => []
  | i, n + 1 =>
    RingEvent.push i i :: RingEvent.submitWait 1 ::
      RingEvent.complete (i - 7) (i - 7) (results (i - 7)) ::
      RingEvent.free (i - 7) :: iouring8Steady results (i + 1) n

/-- The `Strategy::IOUring8` drain loop: while the buffer queue is nonempty,
`submit_and_wait(1)`, handle one CQE (block `j`'s, FIFO) and free its
buffer; `n` buffers remain, the head being block `j`'s. -/
def iouring8Drain (results : Nat → Int) : Nat → Nat → List RingEvent
  | _, 0 => []
  | j, n + 1 =>
    RingEvent.submitWait 1 :: RingEvent.complete j j (results j) ::
      RingEvent.free j :: iouring8Drain results (j + 1) n

/-- Trace of `Strategy::IOUring8` (window depth 8) for `count` blocks. -/
def iouring8Trace (count : Nat) (results : Nat → Int) : List RingEvent :=
  iouring8Prime count ++ iouring8Steady results 7 (count - 7) ++
    iouring8Drain results (count - min 7 count) (min 7 count)

/-- Block indices of all buffers pushed to the submission queue in a trace
(each push allocates a fresh buffer for its block). -/
def pushedList : List RingEvent → List Nat
  | [] => []
  | RingEvent.push _ b :: tr => b :: pushedList tr
  | _ :: tr => pushedList tr

/-- Block indices of all completions handled in a trace. -/
def completedList : List RingEvent → List Nat
  | [] => []
  | RingEvent.complete _ b _ :: tr => b :: completedList tr
  | _ :: tr => completedList tr

/-- Block indices of all buffers freed in a trace. -/
def freedList : List RingEvent → List Nat
  | [] => []
  | RingEvent.free b :: tr => b :: freedList tr
  | _ :: tr => freedList tr

/-- Whether a trace contains a fatal abort. -/
def hasAbort : List RingEvent → Bool
  | [] => false
  | RingEvent.abortRun :: _ => true
  | _ :: tr => hasAbort tr

/-- Outstanding-request bookkeeping: the (tag, block) pairs of operations
submitted but not yet completed.  A push appends; a completion removes the
completed operation. -/
def outStep (s : List (Nat × Nat)) : RingEvent → List (Nat × Nat)
  | RingEvent.push t b => s ++ [(t, b)]
  | RingEvent.complete _ b _ => s.filter fun p => p.2 != b
  | _ => s

/-- `everyState q step s tr` checks `q` at the initial state `s` and after
every event of `tr`: it holds exactly when `q` holds at every point of the
run. -/
def everyState {S E : Type} (q : S → Bool) (step : S → E → S) : S → List E → Bool
  | s, [] => q s
  | s, e :: tr => q s && everyState q step (step s e) tr

/-- Number of entries pushed to the submission queue but not yet submitted
to the kernel; `submit_and_wait` submits all pending entries. -/
def sqStep (p : Nat) : RingEvent → Nat
  | RingEvent.push _ _ => p + 1
  | RingEvent.submitWait _ => 0
  | _ => p

/-- `pushSafe p tr` checks that every `push` in `tr` happens while the
submission queue (currently holding `p` unsubmitted entries) is below its
capacity of 8, i.e. that the `expect("submission queue is full")` branch is
never taken. -/
def pushSafe : Nat → List RingEvent → Bool
  | _, [] => true
  | p, RingEvent.push _ _ :: tr => decide (p < 8) && pushSafe (p + 1) tr
  | _, RingEvent.submitWait _ :: tr => pushSafe 0 tr
  | p, _ :: tr => pushSafe p tr

/-- `freeSafe s tr` runs the outstanding-request bookkeeping `outStep` from
state `s` and checks that every `free b` happens while no outstanding
(submitted, not yet completed) operation references block `b`'s buffer:
no buffer is freed while still in flight. -/
def freeSafe : List (Nat × Nat) → List RingEvent → Bool
  | _, [] => true
  | s, RingEvent.free b :: tr => !((s.map Prod.snd).contains b) && freeSafe s tr
  | s, e :: tr => freeSafe (outStep s e) tr

/-- The outstanding-request window of an in-order run: blocks `a` to
`a + n - 1`, each submitted with its own tag. -/
def winQ (a n : Nat) : List (Nat × Nat) := (List.range' a n).map fun k => (k, k)

theorem everyState_append {S E : Type} (q : S → Bool) (step : S → E → S)
    (t1 t2 : List E) (s : S) :
    everyState q step s (t1 ++ t2) =
      (everyState q step s t1 && everyState q step (List.foldl step s t1) t2) := by
  induction t1 generalizing s with
  | nil =>
    simp only [List.nil_append, List.foldl_nil]
    cases t2 with
    | nil => simp [everyState]
    | cons e tr =>
      simp only [everyState]
      cases q s <;> simp
  | cons e t1 ih =>
    simp only [List.cons_append, List.append_eq, everyState, List.foldl_cons, ih,
      Bool.and_assoc]

theorem pushSafe_append (t1 t2 : List RingEvent) (p : Nat) :
    pushSafe p (t1 ++ t2) = (pushSafe p t1 && pushSafe (List.foldl sqStep p t1) t2) := by
  induction t1 generalizing p with
  | nil => simp [pushSafe]
  | cons e t1 ih =>
    cases e <;>
      simp only [List.cons_append, List.append_eq, pushSafe, sqStep, List.foldl_cons, ih,
        Bool.and_assoc]

theorem freeSafe_append (t1 t2 : List RingEvent) (s : List (Nat × Nat)) :
    freeSafe s (t1 ++ t2) = (freeSafe s t1 && freeSafe (List.foldl outStep s t1) t2) := by
  induction t1 generalizing s with
  | nil => simp [freeSafe]
  | cons e t1 ih =>
    cases e <;>
      simp only [List.cons_append, List.append_eq, freeSafe, outStep, List.foldl_cons, ih,
        Bool.and_assoc]

theorem winQ_length (a n : Nat) : (winQ a n).length = n := by
  simp [winQ]

theorem winQ_succ (a n : Nat) : winQ a (n + 1) = (a, a) :: winQ (a + 1) n := by
  rw [winQ, List.range'_succ]
  rfl

theorem winQ_concat (a n : Nat) : winQ a n ++ [(a + n, a + n)] = winQ a (n + 1) := by
  rw [winQ, winQ, List.range'_concat, List.map_append]
  simp

theorem winQ_filter (a n : Nat) :
    (winQ a (n + 1)).filter (fun p => p.2 != a) = winQ (a + 1) n := by
  rw [winQ_succ, List.filter_cons_of_neg (by simp)]
  apply List.filter_eq_self.mpr
  intro p hp
  obtain ⟨k, hk, rfl⟩ : ∃ k, (a + 1 ≤ k ∧ k < a + 1 + n) ∧ (k, k) = p := by
    simpa [winQ, List.mem_range'_1] using hp
  simp only [bne_iff_ne, ne_eq]
  omega

theorem winQ_map_fst (a n : Nat) : (winQ a n).map Prod.fst = List.range' a n := by
  rw [winQ, List.map_map, show (Prod.fst ∘ fun k : Nat => (k, k)) = id from rfl, List.map_id]

theorem winQ_map_snd (a n : Nat) : (winQ a n).map Prod.snd = List.range' a n := by
  rw [winQ, List.map_map, show (Prod.snd ∘ fun k : Nat => (k, k)) = id from rfl, List.map_id]

theorem primeSeg_foldl (m : Nat) :
    List.foldl outStep [] ((List.range m).map fun i => RingEvent.push i i) = winQ 0 m := by
  induction m with
  | zero => rfl
  | succ m ih =>
    rw [List.range_succ, List.map_append, List.foldl_append, ih]
    show outStep (winQ 0 m) (RingEvent.push m m) = winQ 0 (m + 1)
    simp only [outStep]
    simpa using winQ_concat 0 m

theorem primeSeg_everyState (q : List (Nat × Nat) → Bool)
    (m : Nat) (hq : ∀ n, n ≤ m → q (winQ 0 n) = true) :
    everyState q outStep [] ((List.range m).map fun i => RingEvent.push i i) = true := by
  induction m with
  | zero => exact hq 0 (Nat.le_refl 0)
  | succ m ih =>
    rw [List.range_succ, List.map_append, everyState_append, primeSeg_foldl,
      ih (fun n hn => hq n (Nat.le_succ_of_le hn)), Bool.true_and]
    simp only [everyState, outStep]
    rw [show winQ 0 m ++ [(m, m)] = winQ 0 (m + 1) by simpa using winQ_concat 0 m]
    rw [hq m (by omega), hq (m + 1) (by omega), Bool.and_self]

theorem steadySeg_foldl (results : Nat → Int) :
    ∀ n i, 7 ≤ i →
      List.foldl outStep (winQ (i - 7) 7) (iouring8Steady results i n) =
        winQ (i + n - 7) 7 := by
  intro n
  induction n with
  | zero =>
    intro i _
    rw [show iouring8Steady results i 0 = [] from rfl, List.foldl_nil,
      show i + 0 - 7 = i - 7 from by omega]
  | succ n ih =>
    intro i hi
    have hcat : winQ (i - 7) 7 ++ [(i, i)] = winQ (i - 7) 8 := by
      have h := winQ_concat (i - 7) 7
      rw [show i - 7 + 7 = i from by omega] at h
      exact h
    have hfil : (winQ (i - 7) 8).filter (fun p => p.2 != i - 7) = winQ (i - 6) 7 := by
      have h := winQ_filter (i - 7) 7
      rw [show i - 7 + 1 = i - 6 from by omega] at h
      exact h
    rw [iouring8Steady]
    simp only [List.foldl_cons, outStep]
    rw [hcat, hfil]
    have hrec := ih (i + 1) (by omega)
    rw [show i + 1 - 7 = i - 6 from by omega,
      show i + 1 + n - 7 = i + (n + 1) - 7 from by omega] at hrec
    exact hrec

theorem steadySeg_everyState (q : List (Nat × Nat) → Bool)
    (hq : ∀ a n, n ≤ 8 → q (winQ a n) = true) (results : Nat → Int) :
    ∀ n i, 7 ≤ i →
      everyState q outStep (winQ (i - 7) 7) (iouring8Steady results i n) = true := by
  intro n
  induction n with
  | zero => intro i _; exact hq (i - 7) 7 (by omega)
  | succ n ih =>
    intro i hi
    have hcat : winQ (i - 7) 7 ++ [(i, i)] = winQ (i - 7) 8 := by
      have h := winQ_concat (i - 7) 7
      rw [show i - 7 + 7 = i from by omega] at h
      exact h
    have hfil : (winQ (i - 7) 8).filter (fun p => p.2 != i - 7) = winQ (i - 6) 7 := by
      have h := winQ_filter (i - 7) 7
      rw [show i - 7 + 1 = i - 6 from by omega] at h
      exact h
    rw [iouring8Steady]
    simp only [everyState, outStep]
    rw [hcat, hfil]
    rw [hq (i - 7) 7 (by omega), hq (i - 7) 8 (by omega), hq (i - 6) 7 (by omega)]
    have hrec := ih (i + 1) (by omega)
    rw [show i + 1 - 7 = i - 6 from by omega] at hrec
    rw [hrec]
    rfl

theorem drainSeg_everyState (q : List (Nat × Nat) → Bool)
    (hq : ∀ a n, n ≤ 8 → q (winQ a n) = true) (results : Nat → Int) :
    ∀ n j, n ≤ 8 → everyState q outStep (winQ j n) (iouring8Drain results j n) = true := by
  intro n
  induction n with
  | zero => intro j _; exact hq j 0 (by omega)
  | succ n ih =>
    intro j hn
    rw [iouring8Drain]
    simp only [everyState, outStep]
    rw [winQ_filter j n]
    rw [hq j (n + 1) hn, hq (j + 1) n (by omega), ih (j + 1) (by omega)]
    rfl

theorem iouring8_everyState (q : List (Nat × Nat) → Bool)
    (hq : ∀ a n, n ≤ 8 → q (winQ a n) = true) (count : Nat) (results : Nat → Int) :
    everyState q outStep [] (iouring8Trace count results) = true := by
  have hprime : everyState q outStep [] (iouring8Prime count) = true := by
    rw [iouring8Prime]
    exact primeSeg_everyState q (min 7 count) (fun n _ => hq 0 n (by omega))
  rcases Nat.le_total count 7 with hc | hc
  · have hz : count - 7 = 0 := by omega
    rw [iouring8Trace, List.append_assoc, everyState_append, hprime, Bool.true_and,
      iouring8Prime, primeSeg_foldl, hz,
      show min 7 count = count from by omega,
      show count - count = 0 from by omega,
      show iouring8Steady results 7 0 = ([] : List RingEvent) from rfl, List.nil_append]
    exact drainSeg_everyState q hq results count 0 (by omega)
  · have hmin : min 7 count = 7 := by omega
    rw [iouring8Trace, List.append_assoc, everyState_append, hprime, Bool.true_and,
      iouring8Prime, primeSeg_foldl, hmin, everyState_append]
    have hsteady := steadySeg_everyState q hq results (count - 7) 7 (by omega)
    rw [show (7 : Nat) - 7 = 0 from rfl] at hsteady
    rw [hsteady, Bool.true_and]
    have hfold := steadySeg_foldl results (count - 7) 7 (by omega)
    rw [show (7 : Nat) - 7 = 0 from rfl,
      show 7 + (count - 7) - 7 = count - 7 from by omega] at hfold
    rw [hfold]
    exact drainSeg_everyState q hq results 7 (count - 7) (by omega)

theorem pushedList_append (t1 t2 : List RingEvent) :
    pushedList (t1 ++ t2) = pushedList t1 ++ pushedList t2 := by
  induction t1 with
  | nil => rfl
  | cons e t1 ih => cases e <;> simp only [List.cons_append, List.append_eq, pushedList, ih]

theorem completedList_append (t1 t2 : List RingEvent) :
    completedList (t1 ++ t2) = completedList t1 ++ completedList t2 := by
  induction t1 with
  | nil => rfl
  | cons e t1 ih => cases e <;> simp only [List.cons_append, List.append_eq, completedList, ih]

theorem freedList_append (t1 t2 : List RingEvent) :
    freedList (t1 ++ t2) = freedList t1 ++ freedList t2 := by
  induction t1 with
  | nil => rfl
  | cons e t1 ih => cases e <;> simp only [List.cons_append, List.append_eq, freedList, ih]

theorem hasAbort_append (t1 t2 : List RingEvent) :
    hasAbort (t1 ++ t2) = (hasAbort t1 || hasAbort t2) := by
  induction t1 with
  | nil => rfl
  | cons e t1 ih => cases e <;> simp only [List.cons_append, List.append_eq, hasAbort, ih, Bool.true_or]

theorem getLast?_cons_ne {α : Type} (a : α) (l : List α) (h : l ≠ []) :
    (a :: l).getLast? = l.getLast? := by
  cases l with
  | nil => exact absurd rfl h
  | cons b m => exact List.getLast?_cons_cons

theorem contains_range'_eq_false (a n x : Nat) (h : x < a) :
    (List.range' a n).contains x = false := by
  rw [Bool.eq_false_iff]
  intro hc
  have hm : x ∈ List.range' a n := List.elem_iff.mp hc
  have := List.mem_range'_1.mp hm
  omega

theorem iouringLoop_abort (results : Nat → Int) :
    ∀ j i n, j < n → results (i + j) < 0 → (∀ m, m < j → 0 ≤ results (i + m)) →
      pushedList (iouringLoop results i n) = List.range' i (j + 1) ∧
      completedList (iouringLoop results i n) = List.range' i (j + 1) ∧
      (iouringLoop results i n).getLast? = some RingEvent.abortRun := by
  intro j
  induction j with
  | zero =>
    intro i n hj hneg _
    match n, hj with
    | n + 1, _ =>
      rw [iouringLoop, if_pos (by simpa using hneg)]
      refine ⟨rfl, rfl, rfl⟩
  | succ j ih =>
    intro i n hj hneg hpos
    match n, hj with
    | n + 1, hj =>
      have h0 : ¬ results i < 0 := not_lt.mpr (by simpa using hpos 0 (by omega))
      rw [iouringLoop, if_neg h0]
      obtain ⟨h1, h2, h3⟩ := ih (i + 1) n (by omega)
        (by rw [show i + 1 + j = i + (j + 1) from by omega]; exact hneg)
        (fun m hm => by
          rw [show i + 1 + m = i + (m + 1) from by omega]
          exact hpos (m + 1) (by omega))
      have hne : iouringLoop results (i + 1) n ≠ [] := by
        match n, (show 0 < n from by omega) with
        | n + 1, _ =>
          rw [iouringLoop]
          simp
      refine ⟨?_, ?_, ?_⟩
      · simp only [pushedList, h1]
        rw [List.range'_succ, List.range'_succ, List.range'_succ]
      · simp only [completedList, h2]
        rw [List.range'_succ, List.range'_succ, List.range'_succ]
      · rw [List.getLast?_cons_cons, List.getLast?_cons_cons, List.getLast?_cons_cons,
          getLast?_cons_ne _ _ hne, h3]

theorem iouringLoop_success (results : Nat → Int) :
    ∀ n i, (∀ m, m < n → 0 ≤ results (i + m)) →
      pushedList (iouringLoop results i n) = List.range' i n ∧
      freedList (iouringLoop results i n) = List.range' i n ∧
      completedList (iouringLoop results i n) = List.range' i n ∧
      freeSafe [] (iouringLoop results i n) = true ∧
      hasAbort (iouringLoop results i n) = false := by
  intro n
  induction n with
  | zero => exact fun i _ => ⟨rfl, rfl, rfl, rfl, rfl⟩
  | succ n ih =>
    intro i h
    rw [iouringLoop, if_neg (not_lt.mpr (by simpa using h 0 (by omega)))]
    obtain ⟨h1, h2, h3, h4, h5⟩ := ih (i + 1) (fun m hm => by
      rw [show i + 1 + m = i + (m + 1) from by omega]
      exact h (m + 1) (by omega))
    refine ⟨?_, ?_, ?_, ?_, ?_⟩
    · simp only [pushedList, h1]
      rw [List.range'_succ]
    · simp only [freedList, h2]
      rw [List.range'_succ]
    · simp only [completedList, h3]
      rw [List.range'_succ]
    · simp [freeSafe, outStep, h4]
    · simp only [hasAbort, h5]

theorem iouringLoop_everyState (q : List (Nat × Nat) → Bool)
    (hnil : q [] = true) (hone : ∀ i, q [(0x42, i)] = true) (results : Nat → Int) :
    ∀ n i, everyState q outStep [] (iouringLoop results i n) = true := by
  intro n
  induction n with
  | zero => exact fun _ => hnil
  | succ n ih =>
    intro i
    rw [iouringLoop]
    by_cases hr : results i < 0
    · rw [if_pos hr]
      simp [everyState, outStep, hnil, hone]
    · rw [if_neg hr]
      simp [everyState, outStep, hnil, hone, ih (i + 1)]

theorem iouringLoop_pushSafe (results : Nat → Int) :
    ∀ n i, pushSafe 0 (iouringLoop results i n) = true := by
  intro n
  induction n with
  | zero => exact fun _ => rfl
  | succ n ih =>
    intro i
    rw [iouringLoop]
    by_cases hr : results i < 0
    · rw [if_pos hr]
      rfl
    · rw [if_neg hr]
      simp [pushSafe, ih (i + 1)]

theorem iouring2Body_ne_nil (results : Nat → Int) (ord : Nat → Nat) (i n : Nat) :
    iouring2Body results ord i n ≠ [] := by
  cases n with
  | zero =>
    rw [iouring2Body]
    simp
  | succ n =>
    rw [iouring2Body]
    simp

theorem iouring2Body_abort (results : Nat → Int) (ord : Nat → Nat) :
    ∀ t n i, 1 ≤ i → t ≤ n → results (ord (i - 1 + t)) < 0 →
      (∀ u, u < t → 0 ≤ results (ord (i - 1 + u))) →
      (pushedList (iouring2Body results ord i n)).length = min (t + 1) n ∧
      (completedList (iouring2Body results ord i n)).length = t + 1 ∧
      (iouring2Body results ord i n).getLast? = some RingEvent.abortRun := by
  intro t
  induction t with
  | zero =>
    intro n i _ _ hneg _
    cases n with
    | zero =>
      rw [iouring2Body, if_pos (by simpa using hneg)]
      refine ⟨rfl, rfl, rfl⟩
    | succ n =>
      rw [iouring2Body, if_pos (by simpa using hneg)]
      refine ⟨?_, rfl, rfl⟩
      simp [pushedList]
  | succ t ih =>
    intro n i hi ht hneg hpos
    cases n with
    | zero => exact absurd ht (by omega)
    | succ n =>
      have h0 : ¬ results (ord (i - 1)) < 0 :=
        not_lt.mpr (by simpa using hpos 0 (by omega))
      rw [iouring2Body, if_neg h0]
      obtain ⟨h1, h2, h3⟩ := ih n (i + 1) (by omega) (by omega)
        (by rw [show i + 1 - 1 + t = i - 1 + (t + 1) from by omega]; exact hneg)
        (fun u hu => by
          rw [show i + 1 - 1 + u = i - 1 + (u + 1) from by omega]
          exact hpos (u + 1) (by omega))
      refine ⟨?_, ?_, ?_⟩
      · simp only [pushedList, List.length_cons, h1]
        omega
      · simp only [completedList, List.length_cons, h2]
      · rw [List.getLast?_cons_cons, List.getLast?_cons_cons, List.getLast?_cons_cons,
          getLast?_cons_ne _ _ (iouring2Body_ne_nil results ord (i + 1) n), h3]

theorem iouring2Body_success (results : Nat → Int) (ord : Nat → Nat) :
    ∀ n i, 1 ≤ i → (∀ u, u ≤ n → 0 ≤ results (ord (i - 1 + u))) →
      pushedList (iouring2Body results ord i n) = List.range' i n ∧
      freedList (iouring2Body results ord i n) = List.range' (i - 1) (n + 1) ∧
      (completedList (iouring2Body results ord i n)).length = n + 1 ∧
      hasAbort (iouring2Body results ord i n) = false := by
  intro n
  induction n with
  | zero =>
    intro i hi h
    rw [iouring2Body, if_neg (not_lt.mpr (by simpa using h 0 (by omega)))]
    refine ⟨rfl, rfl, rfl, rfl⟩
  | succ n ih =>
    intro i hi h
    rw [iouring2Body, if_neg (not_lt.mpr (by simpa using h 0 (by omega)))]
    obtain ⟨h1, h2, h3, h4⟩ := ih (i + 1) (by omega) (fun u hu => by
      rw [show i + 1 - 1 + u = i - 1 + (u + 1) from by omega]
      exact h (u + 1) (by omega))
    refine ⟨?_, ?_, ?_, ?_⟩
    · simp only [pushedList, h1]
      rw [List.range'_succ]
    · simp only [freedList, h2, Nat.add_sub_cancel]
      have hgoal : List.range' (i - 1) (n + 1 + 1) = (i - 1) :: i :: List.range' (i + 1) n := by
        rw [List.range'_succ, show i - 1 + 1 = i from by omega, List.range'_succ]
      rw [hgoal, List.range'_succ]
    · simp only [completedList, List.length_cons, h3]
    · simp only [hasAbort, h4]

theorem iouring2Body_id_freeSafe (results : Nat → Int) :
    ∀ n i, 1 ≤ i → (∀ u, u ≤ n → 0 ≤ results (i - 1 + u)) →
      freeSafe [(0x42, i - 1)] (iouring2Body results (fun x => x) i n) = true := by
  intro n
  induction n with
  | zero =>
    intro i hi h
    rw [iouring2Body, if_neg (not_lt.mpr (by simpa using h 0 (by omega)))]
    simp [freeSafe, outStep]
  | succ n ih =>
    intro i hi h
    rw [iouring2Body, if_neg (not_lt.mpr (by simpa using h 0 (by omega)))]
    have hrec := ih (i + 1) (by omega) (fun u hu => by
      rw [show i + 1 - 1 + u = i - 1 + (u + 1) from by omega]
      exact h (u + 1) (by omega))
    rw [show i + 1 - 1 = i from by omega] at hrec
    simp only [freeSafe, outStep]
    -- state after push: [(0x42, i-1), (0x42, i)]; after the completion of
    -- submission i-1 the filter leaves [(0x42, i)]; the free of buffer i-1 is
    -- checked against in-flight buffer list [i].
    have hfil : (([((0x42 : Nat), i - 1)] ++ [((0x42 : Nat), i)]).filter
        fun p => p.2 != i - 1) = [((0x42 : Nat), i)] := by
      simp
      omega
    rw [hfil]
    have hcon : (([((0x42 : Nat), i)].map Prod.snd).contains (i - 1)) = false := by
      rw [Bool.eq_false_iff]
      intro hc
      have hm := List.elem_iff.mp hc
      simp at hm
      omega
    rw [hcon, hrec]
    rfl

theorem iouring2Body_pushSafe (results : Nat → Int) (ord : Nat → Nat) :
    ∀ n i p, p ≤ 1 → pushSafe p (iouring2Body results ord i n) = true := by
  intro n
  induction n with
  | zero =>
    intro i p _
    rw [iouring2Body]
    by_cases hr : results (ord (i - 1)) < 0
    · rw [if_pos hr]
      rfl
    · rw [if_neg hr]
      rfl
  | succ n ih =>
    intro i p hp
    rw [iouring2Body]
    by_cases hr : results (ord (i - 1)) < 0
    · rw [if_pos hr]
      simp [pushSafe, Nat.lt_irrefl]
      omega
    · rw [if_neg hr]
      simp only [pushSafe]
      rw [ih (i + 1) 0 (by omega)]
      simp
      omega

theorem primeSeg_lists (m : Nat) :
    pushedList ((List.range m).map fun i => RingEvent.push i i) = List.range m ∧
    completedList ((List.range m).map fun i => RingEvent.push i i) = [] ∧
    freedList ((List.range m).map fun i => RingEvent.push i i) = [] ∧
    hasAbort ((List.range m).map fun i => RingEvent.push i i) = false := by
  induction m with
  | zero => exact ⟨rfl, rfl, rfl, rfl⟩
  | succ m ih =>
    obtain ⟨h1, h2, h3, h4⟩ := ih
    rw [List.range_succ, List.map_append]
    refine ⟨?_, ?_, ?_, ?_⟩
    · rw [pushedList_append, h1]
      rfl
    · rw [completedList_append, h2]
      rfl
    · rw [freedList_append, h3]
      rfl
    · rw [hasAbort_append, h4]
      rfl

theorem steadySeg_lists (results : Nat → Int) :
    ∀ n i, 7 ≤ i →
      pushedList (iouring8Steady results i n) = List.range' i n ∧
      completedList (iouring8Steady results i n) = List.range' (i - 7) n ∧
      freedList (iouring8Steady results i n) = List.range' (i - 7) n ∧
      hasAbort (iouring8Steady results i n) = false := by
  intro n
  induction n with
  | zero => exact fun i _ => ⟨rfl, rfl, rfl, rfl⟩
  | succ n ih =>
    intro i hi
    obtain ⟨h1, h2, h3, h4⟩ := ih (i + 1) (by omega)
    rw [show i + 1 - 7 = i - 7 + 1 from by omega] at h2 h3
    rw [iouring8Steady]
    refine ⟨?_, ?_, ?_, ?_⟩
    · simp only [pushedList, h1]
      rw [List.range'_succ]
    · simp only [completedList, h2]
      rw [List.range'_succ]
    · simp only [freedList, h3]
      rw [List.range'_succ]
    · simp only [hasAbort, h4]

theorem drainSeg_lists (results : Nat → Int) :
    ∀ n j,
      pushedList (iouring8Drain results j n) = [] ∧
      completedList (iouring8Drain results j n) = List.range' j n ∧
      freedList (iouring8Drain results j n) = List.range' j n ∧
      hasAbort (iouring8Drain results j n) = false := by
  intro n
  induction n with
  | zero => exact fun _ => ⟨rfl, rfl, rfl, rfl⟩
  | succ n ih =>
    intro j
    obtain ⟨h1, h2, h3, h4⟩ := ih (j + 1)
    rw [iouring8Drain]
    refine ⟨?_, ?_, ?_, ?_⟩
    · simp only [pushedList, h1]
    · simp only [completedList, h2]
      rw [List.range'_succ]
    · simp only [freedList, h3]
      rw [List.range'_succ]
    · simp only [hasAbort, h4]

theorem sqStep_primeSeg (m : Nat) :
    ∀ p, List.foldl sqStep p ((List.range m).map fun i => RingEvent.push i i) = p + m := by
  induction m with
  | zero => exact fun p => rfl
  | succ m ih =>
    intro p
    rw [List.range_succ, List.map_append, List.foldl_append, ih]
    show (p + m) + 1 = p + (m + 1)
    omega

theorem primeSeg_pushSafe (m : Nat) :
    ∀ p, p + m ≤ 8 → pushSafe p ((List.range m).map fun i => RingEvent.push i i) = true := by
  induction m with
  | zero => exact fun _ _ => rfl
  | succ m ih =>
    intro p hp
    rw [List.range_succ, List.map_append, pushSafe_append, ih p (by omega), sqStep_primeSeg,
      Bool.true_and]
    show (decide (p + m < 8) && pushSafe (p + m + 1) []) = true
    simp [pushSafe]
    omega

theorem steadySeg_pushSafe (results : Nat → Int) :
    ∀ n i p, p ≤ 7 → pushSafe p (iouring8Steady results i n) = true := by
  intro n
  induction n with
  | zero => exact fun _ _ _ => rfl
  | succ n ih =>
    intro i p hp
    rw [iouring8Steady]
    simp only [pushSafe]
    rw [ih (i + 1) 0 (by omega)]
    simp
    omega

theorem drainSeg_pushSafe (results : Nat → Int) :
    ∀ n j p, pushSafe p (iouring8Drain results j n) = true := by
  intro n
  induction n with
  | zero => exact fun _ _ => rfl
  | succ n ih =>
    intro j p
    rw [iouring8Drain]
    simp only [pushSafe]
    exact ih (j + 1) 0

theorem primeSeg_freeSafe (l : List Nat) :
    ∀ s, freeSafe s (l.map fun i => RingEvent.push i i) = true := by
  induction l with
  | nil => exact fun _ => rfl
  | cons x l ih =>
    intro s
    simp only [List.map_cons, freeSafe, outStep]
    exact ih (s ++ [(x, x)])

theorem steadySeg_freeSafe (results : Nat → Int) :
    ∀ n i, 7 ≤ i → freeSafe (winQ (i - 7) 7) (iouring8Steady results i n) = true := by
  intro n
  induction n with
  | zero => exact fun _ _ => rfl
  | succ n ih =>
    intro i hi
    have hcat : winQ (i - 7) 7 ++ [(i, i)] = winQ (i - 7) 8 := by
      have h := winQ_concat (i - 7) 7
      rw [show i - 7 + 7 = i from by omega] at h
      exact h
    have hfil : (winQ (i - 7) 8).filter (fun p => p.2 != i - 7) = winQ (i - 6) 7 := by
      have h := winQ_filter (i - 7) 7
      rw [show i - 7 + 1 = i - 6 from by omega] at h
      exact h
    rw [iouring8Steady]
    simp only [freeSafe, outStep]
    rw [hcat, hfil, winQ_map_snd, contains_range'_eq_false _ _ _ (by omega)]
    have hrec := ih (i + 1) (by omega)
    rw [show i + 1 - 7 = i - 6 from by omega] at hrec
    rw [hrec]
    rfl

theorem drainSeg_freeSafe (results : Nat → Int) :
    ∀ n j, freeSafe (winQ j n) (iouring8Drain results j n) = true := by
  intro n
  induction n with
  | zero => exact fun _ => rfl
  | succ n ih =>
    intro j
    rw [iouring8Drain]
    simp only [freeSafe, outStep]
    rw [winQ_filter j n, winQ_map_snd, contains_range'_eq_false _ _ _ (by omega)]
    rw [ih (j + 1)]
    rfl

theorem range'_glue (a b c : Nat) (h : a + b = c) :
    List.range' 0 a ++ List.range' a b = List.range' 0 c := by
  have haux := List.range'_append 0 a b 1
  rw [show 0 + 1 * a = a from by omega] at haux
  rw [haux, show b + a = c from by omega]

theorem iouring8Trace_lists (count : Nat) (results : Nat → Int) :
    pushedList (iouring8Trace count results) = List.range count ∧
    completedList (iouring8Trace count results) = List.range count ∧
    freedList (iouring8Trace count results) = List.range count ∧
    hasAbort (iouring8Trace count results) = false := by
  obtain ⟨p1, c1, f1, a1⟩ := primeSeg_lists (min 7 count)
  rcases Nat.le_total count 7 with hc | hc
  · have hmin : min 7 count = count := by omega
    rw [hmin] at p1 c1 f1 a1
    rw [iouring8Trace, iouring8Prime, hmin, show count - 7 = 0 from by omega,
      show iouring8Steady results 7 0 = ([] : List RingEvent) from rfl, List.append_nil,
      show count - count = 0 from by omega]
    obtain ⟨p3, c3, f3, a3⟩ := drainSeg_lists results count 0
    refine ⟨?_, ?_, ?_, ?_⟩
    · rw [pushedList_append, p1, p3, List.append_nil]
    · rw [completedList_append, c1, c3, List.nil_append, List.range_eq_range']
    · rw [freedList_append, f1, f3, List.nil_append, List.range_eq_range']
    · rw [hasAbort_append, a1, a3]
      rfl
  · have hmin : min 7 count = 7 := by omega
    rw [hmin] at p1 c1 f1 a1
    obtain ⟨p2, c2, f2, a2⟩ := steadySeg_lists results (count - 7) 7 (by omega)
    rw [show (7 : Nat) - 7 = 0 from rfl] at c2 f2
    obtain ⟨p3, c3, f3, a3⟩ := drainSeg_lists results 7 (count - 7)
    rw [iouring8Trace, iouring8Prime, hmin]
    refine ⟨?_, ?_, ?_, ?_⟩
    · rw [pushedList_append, pushedList_append, p1, p2, p3, List.append_nil,
        List.range_eq_range', List.range_eq_range']
      exact range'_glue 7 (count - 7) count (by omega)
    · rw [completedList_append, completedList_append, c1, c2, c3, List.nil_append,
        List.range_eq_range']
      exact range'_glue (count - 7) 7 count (by omega)
    · rw [freedList_append, freedList_append, f1, f2, f3, List.nil_append,
        List.range_eq_range']
      exact range'_glue (count - 7) 7 count (by omega)
    · rw [hasAbort_append, hasAbort_append, a1, a2, a3]
      rfl

theorem iouring8Trace_pushSafe (count : Nat) (results : Nat → Int) :
    pushSafe 0 (iouring8Trace count results) = true := by
  rw [iouring8Trace, pushSafe_append, pushSafe_append, iouring8Prime]
  rw [primeSeg_pushSafe (min 7 count) 0 (by omega), Bool.true_and, sqStep_primeSeg]
  rw [steadySeg_pushSafe results (count - 7) 7 (0 + min 7 count) (by omega), Bool.true_and]
  rw [drainSeg_pushSafe]

theorem iouring8Trace_freeSafe (count : Nat) (results : Nat → Int) :
    freeSafe [] (iouring8Trace count results) = true := by
  rw [iouring8Trace, freeSafe_append, freeSafe_append, List.foldl_append, iouring8Prime,
    primeSeg_freeSafe _ _, Bool.true_and, primeSeg_foldl]
  rcases Nat.le_total count 7 with hc | hc
  · rw [show min 7 count = count from by omega, show count - 7 = 0 from by omega,
      show iouring8Steady results 7 0 = ([] : List RingEvent) from rfl,
      show count - count = 0 from by omega]
    simp only [freeSafe, List.foldl_nil, Bool.true_and]
    exact drainSeg_freeSafe results count 0
  · rw [show min 7 count = 7 from by omega]
    have hsf := steadySeg_freeSafe results (count - 7) 7 (by omega)
    rw [show (7 : Nat) - 7 = 0 from rfl] at hsf
    rw [hsf, Bool.true_and]
    have hfold := steadySeg_foldl results (count - 7) 7 (by omega)
    rw [show (7 : Nat) - 7 = 0 from rfl,
      show 7 + (count - 7) - 7 = count - 7 from by omega] at hfold
    rw [hfold]
    exact drainSeg_freeSafe results 7 (count - 7)

theorem iouring2Trace_lists (count : Nat) (results : Nat → Int) (ord : Nat → Nat)
    (h : ∀ u, u < count → 0 ≤ results (ord u)) :
    pushedList (iouring2Trace count results ord) = List.range count ∧
    freedList (iouring2Trace count results ord) = List.range count := by
  by_cases h0 : count = 0
  · subst h0
    exact ⟨rfl, rfl⟩
  · have htr : iouring2Trace count results ord =
        RingEvent.push 0x42 0 :: iouring2Body results ord 1 (count - 1) := by
      rw [iouring2Trace, if_neg h0]
    obtain ⟨h1, h2, _, _⟩ := iouring2Body_success results ord (count - 1) 1 (by omega)
      (fun u hu => by simpa using h u (by omega))
    have hr : List.range' 0 count = 0 :: List.range' 1 (count - 1) := by
      conv_lhs => rw [show count = count - 1 + 1 from by omega]
      rw [List.range'_succ]
    refine ⟨?_, ?_⟩
    · rw [htr]
      simp only [pushedList, h1]
      rw [List.range_eq_range', hr]
    · rw [htr]
      simp only [freedList, h2]
      rw [show (1 : Nat) - 1 = 0 from rfl, show count - 1 + 1 = count from by omega,
        List.range_eq_range']

theorem iouring2Trace_id_freeSafe (count : Nat) (results : Nat → Int)
    (h : ∀ u, u < count → 0 ≤ results u) :
    freeSafe [] (iouring2Trace count results (fun x => x)) = true := by
  by_cases h0 : count = 0
  · subst h0
    rfl
  · rw [iouring2Trace, if_neg h0]
    simp only [freeSafe, outStep]
    have hbody := iouring2Body_id_freeSafe results (count - 1) 1 (by omega)
      (fun u hu => by simpa using h u (by omega))
    simpa using hbody

theorem writeOps_pair_get (count i : Nat) (hi : i < count) :
    ((List.range count).map fun i => ((i : Nat), (0 : Nat)))[i]? = some (i, 0) := by
  rw [List.getElem?_map, List.getElem?_range hi]
  rfl

theorem writeOps_cons_get (count i : Nat) (hi : i < count) :
    (((0, 0) : Nat × Nat) :: (List.range' 1 (count - 1)).map fun i => (i, (0 : Nat)))[i]? =
      some (i, 0) := by
  cases i with
  | zero => simp
  | succ k =>
    rw [List.getElem?_cons_succ, List.getElem?_map,
      List.getElem?_range' 1 1 (show k < count - 1 from by omega)]
    simp
    omega

/-- C1: for every supported strategy and every `(block_size, count)` with
`block_size` a multiple of 64 (and fitting in a `u64` product), a successful
run's report contains a bytes-written figure equal to `block_size * count` —
the `block_size * count` total printed by `write_file` — and that figure is 0
when `count = 0`. -/
theorem c1_report_total (strategy : Strategy) (block_size count : Nat)
    (h64 : block_size % 64 = 0) (hfit : block_size * count < 2 ^ 64) :
    (writeFileReport strategy block_size count).total = block_size * count ∧
    (count = 0 → (writeFileReport strategy block_size count).total = 0) := by
  refine ⟨Nat.mod_eq_of_lt hfit, fun h0 => ?_⟩
  subst h0
  show block_size * 0 % 2 ^ 64 = 0
  simp

/-- Witness for C1 at `strategy = io_uring8, block_size = 64, count = 3`:
the reported total is 192. -/
theorem c1_report_total_witness :
    (writeFileReport Strategy.IOUring8 64 3).total = 64 * 3 ∧
    (3 = 0 → (writeFileReport Strategy.IOUring8 64 3).total = 0) :=
  c1_report_total Strategy.IOUring8 64 3 (by decide) (by decide)

/-- C2: error-policy asymmetry.  (1) `io_uring` (W = 1): if the write of
block `j` is the first to fail (negative result), the run submits exactly
blocks `0..j`, handles exactly `j + 1` completions and ends in the fatal
`assert!` abort — no further block is processed.  (2) `io_uring2` (W = 2):
if arrival `k` is the first negative completion, the run has submitted only
the blocks already in the two-deep window (`min (k+2) count` of them),
handles exactly `k + 1` completions and ends in the fatal abort.
(3) `io_uring8` (W = 8): negative results are only logged — every one of the
`count` blocks is submitted and completed and the trace contains no abort,
whatever the completion results are. -/
theorem c2_error_policy :
    (∀ count results j, j < count → results j < 0 → (∀ m, m < j → 0 ≤ results m) →
      pushedList (iouringTrace count results) = List.range (j + 1) ∧
      completedList (iouringTrace count results) = List.range (j + 1) ∧
      (iouringTrace count results).getLast? = some RingEvent.abortRun) ∧
    (∀ count results ord k, k < count → results (ord k) < 0 →
      (∀ u, u < k → 0 ≤ results (ord u)) →
      (pushedList (iouring2Trace count results ord)).length = min (k + 2) count ∧
      (completedList (iouring2Trace count results ord)).length = k + 1 ∧
      (iouring2Trace count results ord).getLast? = some RingEvent.abortRun) ∧
    (∀ count results,
      pushedList (iouring8Trace count results) = List.range count ∧
      completedList (iouring8Trace count results) = List.range count ∧
      hasAbort (iouring8Trace count results) = false) := by
  refine ⟨?_, ?_, ?_⟩
  · intro count results j hj hneg hpos
    obtain ⟨h1, h2, h3⟩ := iouringLoop_abort results j 0 count hj (by simpa using hneg)
      (fun m hm => by simpa using hpos m hm)
    refine ⟨?_, ?_, ?_⟩
    · rw [iouringTrace, h1]
      exact (List.range_eq_range' _).symm
    · rw [iouringTrace, h2]
      exact (List.range_eq_range' _).symm
    · rw [iouringTrace]
      exact h3
  · intro count results ord k hk hneg hpos
    obtain ⟨h1, h2, h3⟩ := iouring2Body_abort results ord k (count - 1) 1 (by omega)
      (by omega) (by simpa using hneg) (fun u hu => by simpa using hpos u hu)
    have htr : iouring2Trace count results ord =
        RingEvent.push 0x42 0 :: iouring2Body results ord 1 (count - 1) := by
      rw [iouring2Trace, if_neg (by omega)]
    refine ⟨?_, ?_, ?_⟩
    · rw [htr]
      simp only [pushedList, List.length_cons, h1]
      omega
    · rw [htr]
      simp only [completedList, h2]
    · rw [htr, getLast?_cons_ne _ _ (iouring2Body_ne_nil results ord 1 (count - 1)), h3]
  · intro count results
    obtain ⟨h1, h2, _, h4⟩ := iouring8Trace_lists count results
    exact ⟨h1, h2, h4⟩

/-- Witness for C2: a first-write failure under `io_uring` with `count = 1`
submits exactly block 0, handles one completion and aborts. -/
theorem c2_error_policy_witness :
    pushedList (iouringTrace 1 (fun _ => -1)) = List.range 1 ∧
    completedList (iouringTrace 1 (fun _ => -1)) = List.range 1 ∧
    (iouringTrace 1 (fun _ => -1)).getLast? = some RingEvent.abortRun :=
  c2_error_policy.1 1 (fun _ => -1) 0 (by decide) (by decide)
    (fun m hm => absurd hm (by omega))

/-- C3: in the `io_uring8` windowed scheduler, at every point of the run the
number of outstanding (submitted, not yet completed) requests is at least 0
and at most the window depth 8, for every `count` and every completion
result. -/
theorem c3_window_bound (count : Nat) (results : Nat → Int) :
    everyState (fun s => decide (0 ≤ s.length) && decide (s.length ≤ 8)) outStep []
      (iouring8Trace count results) = true := by
  apply iouring8_everyState
  intro a n hn
  simp [winQ_length, hn]

/-- C4: in all three ring strategies every `ring.submission().push(..)`
happens while the submission queue holds strictly fewer than its capacity of
8 pending entries, so the `expect("submission queue is full")` abort branch
is unreachable, for every `count`, every completion result and (for
`io_uring2`) every completion order. -/
theorem c4_no_queue_full :
    (∀ count results, pushSafe 0 (iouringTrace count results) = true) ∧
    (∀ count results ord, pushSafe 0 (iouring2Trace count results ord) = true) ∧
    (∀ count results, pushSafe 0 (iouring8Trace count results) = true) := by
  refine ⟨?_, ?_, ?_⟩
  · intro count results
    rw [iouringTrace]
    exact iouringLoop_pushSafe results count 0
  · intro count results ord
    rw [iouring2Trace]
    by_cases h0 : count = 0
    · rw [if_pos h0]
      rfl
    · rw [if_neg h0]
      simp only [pushSafe]
      rw [iouring2Body_pushSafe results ord (count - 1) 1 1 (by omega)]
      simp
  · intro count results
    exact iouring8Trace_pushSafe count results

/-- C5 counterexample: the claim "in every ring-based strategy the tags of
all currently-outstanding submissions are pairwise distinct at every point"
fails for `io_uring2`: with `count = 2` (in-order completions, a valid
retirement order), right after the second push both outstanding submissions
carry the same constant tag `0x42`. -/
theorem c5_counterexample :
    ValidOrd 2 (fun k => k) ∧
    everyState (fun s => decide (s.map Prod.fst).Nodup) outStep []
      (iouring2Trace 2 (fun _ => 0) (fun k => k)) = false := by
  exact ⟨⟨by decide, by decide⟩, by rfl⟩

/-- C5 (amended): `io_uring` keeps at most one submission outstanding, so
its outstanding tags (always `0x42`) are trivially pairwise distinct at
every point, and `io_uring8` tags each submission with its block index, so
its outstanding tags are pairwise distinct at every point; `io_uring2`
however tags both of its simultaneously outstanding submissions `0x42`, and
violates the claim (see the counterexample). -/
theorem c5_tags_distinct_amended :
    (∀ count results,
      everyState (fun s => decide (s.map Prod.fst).Nodup) outStep []
        (iouringTrace count results) = true) ∧
    (∀ count results,
      everyState (fun s => decide (s.map Prod.fst).Nodup) outStep []
        (iouring8Trace count results) = true) := by
  constructor
  · intro count results
    rw [iouringTrace]
    exact iouringLoop_everyState _ (by decide) (fun i => by simp) results count 0
  · intro count results
    apply iouring8_everyState
    intro a n _
    simp only [winQ_map_fst, decide_eq_true_eq]
    exact List.nodup_range' a n

/-- C6 counterexample: the claim that the generated buffer's remaining 56
bytes per chunk "are zero" fails for `make_block_mem_aligned`, whose buffer
comes from `std::alloc::alloc` uninitialized: if the allocator returns bytes
that are all 1, byte 8 of the generated block is 1, not 0. -/
theorem c6_counterexample :
    (make_block_mem_aligned 64 0 (List.replicate 64 1))[8]? = some 1 ∧ (1 : Nat) ≠ 0 := by
  exact ⟨by rfl, by decide⟩

/-- C6 (amended): for `block_size` a multiple of 64, `make_block` produces
exactly `block_size` bytes where, for every chunk `c < block_size / 64`,
bytes `64c .. 64c+8` are the little-endian `u64` encoding of `idx + c` and
the remaining 56 bytes of the chunk are zero (the `Vec` is
zero-initialized); `make_block_mem_aligned` stamps the same 8-byte prefixes
but leaves the remaining 56 bytes of each chunk exactly as the allocator
provided them — they are zero only if the allocation happened to be. -/
theorem c6_block_layout (block_size idx : Nat) (h64 : block_size % 64 = 0) :
    ((make_block block_size idx).length = block_size ∧
      ∀ c, c < block_size / 64 →
        (∀ j, j < 8 →
          (make_block block_size idx)[64 * c + j]? =
            some ((idx + c) % 2 ^ 64 / 256 ^ j % 256)) ∧
        (∀ j, 8 ≤ j → j < 64 → (make_block block_size idx)[64 * c + j]? = some 0)) ∧
    ∀ initMem : List Nat, initMem.length = block_size →
      (make_block_mem_aligned block_size idx initMem).length = block_size ∧
      ∀ c, c < block_size / 64 →
        (∀ j, j < 8 →
          (make_block_mem_aligned block_size idx initMem)[64 * c + j]? =
            some ((idx + c) % 2 ^ 64 / 256 ^ j % 256)) ∧
        (∀ j, 8 ≤ j → j < 64 →
          (make_block_mem_aligned block_size idx initMem)[64 * c + j]? =
            initMem[64 * c + j]?) := by
  refine ⟨⟨make_block_length _ _, fun c hc => ⟨fun j hj => ?_, fun j hj8 hj64 => ?_⟩⟩,
    fun initMem hlen => ⟨by rw [make_block_mem_aligned_length, hlen],
      fun c hc => ⟨fun j hj => ?_, fun j hj8 hj64 => ?_⟩⟩⟩
  · rw [make_block_stamp _ _ _ _ hc (by omega), if_pos hj]
  · rw [make_block_stamp _ _ _ _ hc (by omega), if_neg (by omega),
      List.getElem?_replicate, if_pos (by omega)]
  · rw [make_block_mem_aligned_stamp _ _ _ _ _ hlen hc (by omega), if_pos hj]
  · rw [make_block_mem_aligned_stamp _ _ _ _ _ hlen hc (by omega), if_neg (by omega)]

/-- Witness for C6 (amended) at `block_size = 64, idx = 0`. -/
theorem c6_block_layout_witness :
    (make_block 64 0).length = 64 ∧ (make_block 64 0)[8]? = some 0 :=
  ⟨((c6_block_layout 64 0 (by decide)).1).1,
    by
      have h := (((c6_block_layout 64 0 (by decide)).1).2 0 (by decide)).2 8
        (by decide) (by decide)
      simpa using h⟩

/-- C7 counterexample: the claim "no buffer is freed while a submitted write
referencing it is still awaiting its completion" fails for `io_uring2`: its
submissions are not chained, so with `count = 2` the kernel may retire the
two writes in the order 1, 0 (a valid retirement order — both writes are in
the kernel at the first wait).  The strategy then frees block 0's buffer
after the first completion (which was block 1's), while block 0's write is
still in flight. -/
theorem c7_counterexample :
    ValidOrd 2 (fun k => 1 - k) ∧
    freeSafe [] (iouring2Trace 2 (fun _ => 0) (fun k => 1 - k)) = false := by
  exact ⟨⟨by decide, by decide⟩, by rfl⟩

/-- C7 (amended): on a run with no failed write, every strategy pushes
blocks `0..count-1` with a fresh buffer each and frees exactly those
buffers, each exactly once.  No buffer is freed while its write is still
outstanding in `io_uring` (single outstanding write) and in `io_uring8`
(chained submissions retire in order); for `io_uring2` the
freed-exactly-once part holds for every retirement order, but the
no-free-while-in-flight part holds only under in-order retirement (see the
counterexample for out-of-order retirement). -/
theorem c7_buffer_lifecycle_amended :
    (∀ count results, (∀ m, m < count → 0 ≤ results m) →
      pushedList (iouringTrace count results) = List.range count ∧
      freedList (iouringTrace count results) = List.range count ∧
      freeSafe [] (iouringTrace count results) = true) ∧
    (∀ count results ord, (∀ u, u < count → 0 ≤ results (ord u)) →
      pushedList (iouring2Trace count results ord) = List.range count ∧
      freedList (iouring2Trace count results ord) = List.range count) ∧
    (∀ count results, (∀ u, u < count → 0 ≤ results u) →
      freeSafe [] (iouring2Trace count results (fun x => x)) = true) ∧
    (∀ count results,
      pushedList (iouring8Trace count results) = List.range count ∧
      freedList (iouring8Trace count results) = List.range count ∧
      freeSafe [] (iouring8Trace count results) = true) := by
  refine ⟨?_, iouring2Trace_lists, iouring2Trace_id_freeSafe, ?_⟩
  · intro count results h
    obtain ⟨h1, h2, _, h4, _⟩ :=
      iouringLoop_success results count 0 (fun m hm => by simpa using h m hm)
    rw [iouringTrace]
    exact ⟨by rw [h1, List.range_eq_range'], by rw [h2, List.range_eq_range'], h4⟩
  · intro count results
    obtain ⟨h1, _, h3, _⟩ := iouring8Trace_lists count results
    exact ⟨h1, h3, iouring8Trace_freeSafe count results⟩

/-- Witness for C7 (amended): `io_uring`, `count = 2`, all writes succeed. -/
theorem c7_buffer_lifecycle_amended_witness :
    pushedList (iouringTrace 2 (fun _ => 0)) = List.range 2 ∧
    freedList (iouringTrace 2 (fun _ => 0)) = List.range 2 ∧
    freeSafe [] (iouringTrace 2 (fun _ => 0)) = true :=
  c7_buffer_lifecycle_amended.1 2 (fun _ => 0) (fun m _ => le_refl 0)

/-- C8 counterexample: `Cmd::from_env` performs no `block_size` validation:
the defaulted configuration (no `--block-size` flag) is accepted with
`block_size = 32`, which is not a multiple of 64 — contradicting the claim
that every accepted configuration has a block size that is a multiple
of 64. -/
theorem c8_counterexample :
    Cmd.from_env ⟨some "write", some "f", none, none, none, false⟩ =
      some ⟨SubCmd.Write "f" 32 1 Strategy.Sequential, false⟩ ∧ 32 % 64 ≠ 0 :=
  ⟨rfl, by decide⟩

/-- C8 (amended): configuration-time parsing accepts every `block_size`
unchanged — non-multiples of 64 are not rejected, and the default is 32
(itself not a multiple of 64); `make_block` then simply stamps
`block_size / 64` chunks. -/
theorem c8_no_blocksize_validation (bs count : Nat) (f : String) (v : Bool) :
    Cmd.from_env ⟨some "write", some f, some bs, some count, none, v⟩ =
      some ⟨SubCmd.Write f bs count Strategy.Sequential, v⟩ := rfl

/-- C9: in every strategy, the write for block `i` (0 ≤ i < count) targets
file offset 0, not `i * block_size`: each write overwrites the previous one
instead of growing the file.  (`Sequential`/`Async`/`Async2` pass a literal
0 with the computed `pos` commented out; the io_uring opcodes are built
without `.offset(..)`, whose default is 0.) -/
theorem c9_offset_zero (strategy : Strategy) (block_size count i : Nat) (hi : i < count) :
    (writeOps strategy block_size count)[i]? = some (i, 0) := by
  cases strategy with
  | Sequential => exact writeOps_pair_get count i hi
  | Async => exact writeOps_pair_get count i hi
  | Async2 =>
    rw [writeOps, if_neg (by omega)]
    exact writeOps_cons_get count i hi
  | IOUring => exact writeOps_pair_get count i hi
  | IOUring2 =>
    rw [writeOps, if_neg (by omega)]
    exact writeOps_cons_get count i hi
  | IOUring8 => exact writeOps_pair_get count i hi

/-- Witness for C9: block 1 of a 3-block `io_uring2` run targets offset 0. -/
theorem c9_offset_zero_witness :
    (writeOps Strategy.IOUring2 64 3)[1]? = some (1, 0) :=
  c9_offset_zero Strategy.IOUring2 64 3 1 (by decide)

/-- C10 counterexample: the claim that calling the generator twice with the
same `(block_size, block_index)` yields byte-identical buffers fails for the
aligned variant: `make_block_mem_aligned` reads its buffer from an
uninitialized allocation, so two calls whose allocations hold different
residual bytes (here all-0 versus all-1) return different buffers. -/
theorem c10_counterexample :
    make_block_mem_aligned 64 0 (List.replicate 64 0) ≠
      make_block_mem_aligned 64 0 (List.replicate 64 1) := by
  decide

/-- C10 (amended): `make_block` is deterministic in `(block_size, idx)`
outright; `make_block_mem_aligned` is deterministic only on the stamped
bytes — the first 8 bytes of every 64-byte chunk agree across any two calls
— while the remaining bytes repeat whatever the allocator returned and may
differ between calls. -/
theorem c10_determinism (block_size idx : Nat) (m1 m2 : List Nat)
    (h1 : m1.length = block_size) (h2 : m2.length = block_size) :
    make_block block_size idx = make_block block_size idx ∧
    ∀ c, c < block_size / 64 → ∀ j, j < 8 →
      (make_block_mem_aligned block_size idx m1)[64 * c + j]? =
        (make_block_mem_aligned block_size idx m2)[64 * c + j]? := by
  refine ⟨rfl, fun c hc j hj => ?_⟩
  rw [make_block_mem_aligned_stamp _ _ _ _ _ h1 hc (by omega), if_pos hj,
    make_block_mem_aligned_stamp _ _ _ _ _ h2 hc (by omega), if_pos hj]

/-- Witness for C10 (amended): the stamped byte 0 agrees across two calls
with different allocator residue. -/
theorem c10_determinism_witness :
    (make_block_mem_aligned 64 0 (List.replicate 64 0))[0]? =
      (make_block_mem_aligned 64 0 (List.replicate 64 1))[0]? := by
  have h := (c10_determinism 64 0 (List.replicate 64 0) (List.replicate 64 1)
    (by simp) (by simp)).2 0 (by decide) 0 (by decide)
  simpa using h

end Raio
